import Mathlib

set_option maxRecDepth 40000

/-!
Verification of the contract-invocation client specified in `spec.md` against
the repository's source (`src/examples/erc20.rs`).

The repository itself is a 107-line example whose encoding, dispatch and
signing machinery lives in the external `ethers-rs` library; the spec
re-specifies that machinery as THE CORE (EncodingEngine, InterfaceRegistry,
TransportClient, SigningContext, ContractHandle).  Those components are
therefore modelled here from the spec's own words (each such definition is
marked `Modelled from the spec:`), while `read_secret_from_file` is embedded
directly from the source.
-/

namespace AbiClient

/-! ### Byte-level utilities (32-byte big-endian words, per spec §4.1) -/

/-- Big-endian byte rendering of `n` into exactly `k` bytes. -/
def natToBytesBE : Nat → Nat → List Nat
  | _, 0 => []
  | n, k + 1 => natToBytesBE (n / 256) k ++ [n % 256]

/-- Big-endian interpretation of a byte list as a natural number. -/
def bytesToNatBE (bs : List Nat) : Nat :=
  bs.foldl (fun a b => a * 256 + b) 0

/-- Zero-pad a byte list on the right up to a multiple of 32 bytes. -/
def padRight32 (bs : List Nat) : List Nat :=
  bs ++ List.replicate ((32 - bs.length % 32) % 32) 0

/-! ### Data model (spec §3): TypeDescriptor, TypedValue -/

/-- Spec §3 TypeDescriptor: the tagged variants driving encoding. -/
inductive TypeDescriptor where
  | UnsignedInt (bits : Nat)
  | Address
  | Bool
  | String
  | DynamicBytes
  | FixedArray (t : TypeDescriptor) (n : Nat)
  | DynamicArray (t : TypeDescriptor)
deriving Repr, DecidableEq

/-- Spec §3 TypedValue: the value variants mirroring TypeDescriptor.
A string value is carried as its UTF-8 byte content. -/
inductive TypedValue where
  | UInt (v : Nat)
  | Addr (bytes : List Nat)
  | Boolean (b : Bool)
  | Str (bytes : List Nat)
  | Bytes (bs : List Nat)
  | Arr (elems : List TypedValue)

/-- A type is dynamic when its encoding goes through the offset/tail
indirection of spec §4.1. -/
def isDynamic : TypeDescriptor → Bool
  | .String => true
  | .DynamicBytes => true
  | .DynamicArray _ => true
  | .FixedArray t _ => isDynamic t
  | _ => false

/-- Head-region size in bytes of a static type (spec §4.1: fixed-size types
occupy 32-byte-aligned slots in place). -/
def staticSize : TypeDescriptor → Nat
  | .FixedArray t n => n * staticSize t
  | _ => 32

/-- Well-formedness of a descriptor: integer bitwidths lie in 1..256 and
fixed arrays are nonempty, as in the ABI type grammar. -/
def wfTy : TypeDescriptor → Bool
  | .UnsignedInt bits => decide (0 < bits) && decide (bits ≤ 256)
  | .FixedArray t n => wfTy t && decide (0 < n)
  | .DynamicArray t => wfTy t
  | _ => true

mutual
/-- Spec §3 invariant: a TypedValue's tag structurally matches its declared
TypeDescriptor (including value ranges: an unsigned integer fits its
bitwidth, an address is 20 bytes, byte payloads are genuine bytes). -/
def matchesTy : TypeDescriptor → TypedValue → Bool
  | .UnsignedInt bits, .UInt v => decide (v < 2 ^ bits)
  | .Address, .Addr bs => decide (bs.length = 20) && bs.all (fun b => decide (b < 256))
  | .Bool, .Boolean _ => true
  | .String, .Str bs => bs.all (fun b => decide (b < 256))
  | .DynamicBytes, .Bytes bs => bs.all (fun b => decide (b < 256))
  | .FixedArray t n, .Arr vs => decide (vs.length = n) && matchesList t vs
  | .DynamicArray t, .Arr vs => matchesList t vs
  | _, _ => false

/-- All elements of a homogeneous list match the element descriptor. -/
def matchesList : TypeDescriptor → List TypedValue → Bool
  | _, [] => true
  | t, v :: vs => matchesTy t v && matchesList t vs
end

/-! ### EncodingEngine (spec §4.1) — Modelled from the spec:
the encoder/decoder live in the external `ethers-rs` dependency, not under
`src/`; the definitions below follow the spec's head/tail algorithm. -/

/-- Spec §4.1 / §7 encoding failures. -/
inductive EncodingError where
  | ArgumentMismatch
  | ValueOutOfRange
  | UnsupportedType
deriving Repr, DecidableEq

/-- Spec §4.1 / §7 decoding failures. -/
inductive DecodeError where
  | DecodeTruncated
  | UnsupportedType
deriving Repr, DecidableEq

/-- Offset words for the head region: each dynamic element contributes a
32-byte offset to its payload, offsets increasing by payload length. -/
def headsFrom (base : Nat) : List (List Nat) → List Nat
  | [] => []
  | e :: es => natToBytesBE base 32 ++ headsFrom (base + e.length) es

/-- Assemble encoded element payloads into a region: static elements sit in
place in declaration order; dynamic elements get a head of offsets pointing
into the concatenated tail (spec §4.1). -/
def assemble (dyn : Bool) (es : List (List Nat)) : List Nat :=
  if dyn then headsFrom (32 * es.length) es ++ es.flatten else es.flatten

mutual
/-- Modelled from the spec: `encode` of a single value at a descriptor,
spec §4.1.  Fixed-size values fill 32-byte slots in place; dynamic values
are length-prefixed payloads; arrays recurse through `assemble`. -/
def encodeValue : TypeDescriptor → TypedValue → Except EncodingError (List Nat)
  | .UnsignedInt bits, .UInt v =>
    if v < 2 ^ bits then .ok (natToBytesBE v 32) else .error .ValueOutOfRange
  | .Address, .Addr bs =>
    if bs.length = 20 then .ok (List.replicate 12 0 ++ bs) else .error .ArgumentMismatch
  | .Bool, .Boolean b => .ok (natToBytesBE (if b then 1 else 0) 32)
  | .String, .Str bs => .ok (natToBytesBE bs.length 32 ++ padRight32 bs)
  | .DynamicBytes, .Bytes bs => .ok (natToBytesBE bs.length 32 ++ padRight32 bs)
  | .FixedArray t n, .Arr vs =>
    if vs.length = n then
      match encodeList t vs with
      | .ok es => .ok (assemble (isDynamic t) es)
      | .error err => .error err
    else .error .ArgumentMismatch
  | .DynamicArray t, .Arr vs =>
    match encodeList t vs with
    | .ok es => .ok (natToBytesBE vs.length 32 ++ assemble (isDynamic t) es)
    | .error err => .error err
  | _, _ => .error .ArgumentMismatch

/-- Encode each element of a homogeneous list, left to right, failing on the
first element that fails. -/
def encodeList : TypeDescriptor → List TypedValue → Except EncodingError (List (List Nat))
  | _, [] => .ok []
  | t, v :: vs =>
    match encodeValue t v, encodeList t vs with
    | .ok e, .ok es => .ok (e :: es)
    | .error err, _ => .error err
    | _, .error err => .error err
end

/-- Decode `count` array elements given the element decoder `dec`, the full
region `full` (offsets are relative to its start) and the head cursor `cur`:
static elements are read in place, dynamic elements through their offset
(spec §4.1, decoding mirror of the head/tail split). -/
def decodeElemsF (dec : List Nat → Except DecodeError TypedValue) (sz : Nat) (dyn : Bool) :
    Nat → List Nat → List Nat → Except DecodeError (List TypedValue)
  | 0, _, _ => .ok []
  | k + 1, full, cur =>
    if dyn then
      if 32 ≤ cur.length then
        match dec (full.drop (bytesToNatBE (cur.take 32))),
              decodeElemsF dec sz dyn k full (cur.drop 32) with
        | .ok v, .ok vs => .ok (v :: vs)
        | .error err, _ => .error err
        | _, .error err => .error err
      else .error .DecodeTruncated
    else
      match dec cur, decodeElemsF dec sz dyn k full (cur.drop sz) with
      | .ok v, .ok vs => .ok (v :: vs)
      | .error err, _ => .error err
      | _, .error err => .error err

/-- Modelled from the spec: `decode` of a single value at a descriptor from a
byte region whose start is the value's encoding (spec §4.1: read head slots;
for offset slots follow the offset into the tail to a length-prefixed
payload). -/
def decodeValue : TypeDescriptor → List Nat → Except DecodeError TypedValue
  | .UnsignedInt _, bs =>
    if 32 ≤ bs.length then .ok (.UInt (bytesToNatBE (bs.take 32)))
    else .error .DecodeTruncated
  | .Address, bs =>
    if 32 ≤ bs.length then .ok (.Addr ((bs.take 32).drop 12))
    else .error .DecodeTruncated
  | .Bool, bs =>
    if 32 ≤ bs.length then .ok (.Boolean (decide (bytesToNatBE (bs.take 32) ≠ 0)))
    else .error .DecodeTruncated
  | .String, bs =>
    if 32 ≤ bs.length then
      if 32 + bytesToNatBE (bs.take 32) ≤ bs.length then
        .ok (.Str ((bs.drop 32).take (bytesToNatBE (bs.take 32))))
      else .error .DecodeTruncated
    else .error .DecodeTruncated
  | .DynamicBytes, bs =>
    if 32 ≤ bs.length then
      if 32 + bytesToNatBE (bs.take 32) ≤ bs.length then
        .ok (.Bytes ((bs.drop 32).take (bytesToNatBE (bs.take 32))))
      else .error .DecodeTruncated
    else .error .DecodeTruncated
  | .FixedArray t n, bs =>
    (decodeElemsF (decodeValue t) (staticSize t) (isDynamic t) n bs bs).map .Arr
  | .DynamicArray t, bs =>
    if 32 ≤ bs.length then
      (decodeElemsF (decodeValue t) (staticSize t) (isDynamic t)
        (bytesToNatBE (bs.take 32)) (bs.drop 32) (bs.drop 32)).map .Arr
    else .error .DecodeTruncated


/-- Per-element round-trip property used by the round-trip induction:
a static element's payload has exactly its head-slot size, and decoding from
the payload (followed by any suffix) recovers the value whenever the payload
is addressable by a 32-byte offset word. -/
def ElemRT (t : TypeDescriptor) (e : List Nat) (v : TypedValue) : Prop :=
  (isDynamic t = false → e.length = staticSize t) ∧
  (e.length < 256 ^ 32 → ∀ rest, decodeValue t (e ++ rest) = Except.ok v)

/-! ### Top-level argument/return tuples (spec §4.1 head/tail layout) -/

/-- Encode each component of a heterogeneous tuple, recording whether it is
dynamic; fails on the first component that fails. -/
def encodePieces : List (TypeDescriptor × TypedValue) →
    Except EncodingError (List (Bool × List Nat))
  | [] => .ok []
  | (t, v) :: rest =>
    match encodeValue t v, encodePieces rest with
    | .ok e, .ok ps => .ok ((isDynamic t, e) :: ps)
    | .error err, _ => .error err
    | _, .error err => .error err

/-- Total size of the head region of a tuple: 32 bytes per dynamic component
(its offset word), the full in-place encoding for static components. -/
def headSizeOf (ps : List (Bool × List Nat)) : Nat :=
  (ps.map (fun p => if p.1 then 32 else p.2.length)).sum

/-- Build the head and tail regions of a tuple: static payloads go into the
head in declaration order, dynamic payloads go into the tail with a 32-byte
offset word in the head, offsets relative to the start of the tuple. -/
def buildHT (base : Nat) : List (Bool × List Nat) → List Nat × List Nat
  | [] => ([], [])
  | (dyn, e) :: ps =>
    if dyn then
      let ht := buildHT (base + e.length) ps
      (natToBytesBE base 32 ++ ht.1, e ++ ht.2)
    else
      let ht := buildHT base ps
      (e ++ ht.1, ht.2)

/-- Modelled from the spec: ABI-encode a heterogeneous argument tuple
(spec §4.1: head slots in declaration order, dynamic tails appended). -/
def encodeTuple (tvs : List (TypeDescriptor × TypedValue)) :
    Except EncodingError (List Nat) :=
  match encodePieces tvs with
  | .ok ps => .ok ((buildHT (headSizeOf ps) ps).1 ++ (buildHT (headSizeOf ps) ps).2)
  | .error err => .error err

/-- Modelled from the spec: decode a heterogeneous return tuple: walk the
head slots; static values are read in place, dynamic values through their
offset into `full` (spec §4.1). -/
def decodeFields : List TypeDescriptor → List Nat → List Nat →
    Except DecodeError (List TypedValue)
  | [], _, _ => .ok []
  | t :: ts, full, cur =>
    if isDynamic t then
      if 32 ≤ cur.length then
        match decodeValue t (full.drop (bytesToNatBE (cur.take 32))),
              decodeFields ts full (cur.drop 32) with
        | .ok v, .ok vs => .ok (v :: vs)
        | .error err, _ => .error err
        | _, .error err => .error err
      else .error .DecodeTruncated
    else
      match decodeValue t cur, decodeFields ts full (cur.drop (staticSize t)) with
      | .ok v, .ok vs => .ok (v :: vs)
      | .error err, _ => .error err
      | _, .error err => .error err

/-- Spec §4.1: `decode(signature.returns, rawBytes) -> [TypedValue]`. -/
def decodeReturns (ts : List TypeDescriptor) (raw : List Nat) :
    Except DecodeError (List TypedValue) :=
  decodeFields ts raw raw

/-! ### InterfaceRegistry and method signatures (spec §3, §4.2) -/

/-- Spec §3 / glossary: mutability class of a method. -/
inductive Mutability where
  | Pure
  | View
  | Payable
  | NonPayable
deriving Repr, DecidableEq

/-- Spec §3 MethodSignature: name, argument types, return types, mutability. -/
structure MethodSignature where
  name : String
  args : List TypeDescriptor
  rets : List TypeDescriptor
  mutability : Mutability
deriving Repr, DecidableEq

/-- A method mutates state when its class is Payable or NonPayable. -/
def isMutating : Mutability → Bool
  | .Payable => true
  | .NonPayable => true
  | _ => false

/-- Canonical ABI rendering of a type, used in the signature string. -/
def canonicalOfTy : TypeDescriptor → String
  | .UnsignedInt bits => "uint" ++ toString bits
  | .Address => "address"
  | .Bool => "bool"
  | .String => "string"
  | .DynamicBytes => "bytes"
  | .FixedArray t n => canonicalOfTy t ++ "[" ++ toString n ++ "]"
  | .DynamicArray t => canonicalOfTy t ++ "[]"

/-- Canonical signature string `name(type1,type2,...)` (spec §3 CallData). -/
def canonicalSig (s : MethodSignature) : String :=
  s.name ++ "(" ++ String.intercalate "," (s.args.map canonicalOfTy) ++ ")"

/-- Modelled from the spec: the 4-byte selector is a hash-derived
discriminant of the canonical signature string (spec §3); the concrete hash
function (keccak-256) is an external primitive not present in the source, so
it is modelled by a deterministic stand-in rolling hash. -/
def selectorOf (canonical : String) : List Nat :=
  natToBytesBE (canonical.data.foldl (fun a c => (a * 31 + c.toNat) % 2 ^ 32) 7) 4

/-- Spec §7 StateError variants. -/
inductive StateError where
  | NoSigningContext
  | ChainIdentityUnset
  | UnknownMethod
  | DuplicateSignature
deriving Repr, DecidableEq

/-- Spec §4.3 / §7 transport failures (surfaced, never retried by the core). -/
inductive TransportError where
  | RpcError
  | RemoteRevert
  | Underpriced
  | NonceTooLow
deriving Repr, DecidableEq

/-- Modelled from the spec: `resolve(name, argTypes)` over the read-only
registry, failing with `UnknownMethod` (spec §4.2). -/
def resolve (reg : List MethodSignature) (n : String) (ats : List TypeDescriptor) :
    Except StateError MethodSignature :=
  match reg with
  | [] => .error .UnknownMethod
  | s :: rest => if s.name = n ∧ s.args = ats then .ok s else resolve rest n ats

/-- The `deposit()` method of the source's `abigen!(Weth)` block (payable). -/
def depositSig : MethodSignature := ⟨"deposit", [], [], .Payable⟩

/-- The `withdraw(uint256)` method of the source's `abigen!` block
(external, default mutability: NonPayable). -/
def withdrawSig : MethodSignature := ⟨"withdraw", [.UnsignedInt 256], [], .NonPayable⟩

/-- The `sum(uint256[]) -> (string, uint256)` method of the source's
`abigen!` block (pure). -/
def sumSig : MethodSignature :=
  ⟨"sum", [.DynamicArray (.UnsignedInt 256)], [.String, .UnsignedInt 256], .Pure⟩

/-- The `sumWithHelper(address, uint256[]) -> uint256` method (view). -/
def sumWithHelperSig : MethodSignature :=
  ⟨"sumWithHelper", [.Address, .DynamicArray (.UnsignedInt 256)], [.UnsignedInt 256], .View⟩

/-- The `decimals() -> uint8` method (pure). -/
def decimalsSig : MethodSignature := ⟨"decimals", [], [.UnsignedInt 8], .Pure⟩

/-- The interface registry declared by the source's `abigen!(Weth)` block. -/
def wethRegistry : List MethodSignature :=
  [depositSig, withdrawSig, sumSig, sumWithHelperSig, decimalsSig]

/-- Modelled from the spec: `encode(signature, arguments) -> CallData`
(spec §3, §4.1): 4-byte selector followed by the ABI-encoded argument tuple;
`ArgumentMismatch` on an argument-count mismatch, with per-argument shape and
range failures surfaced from the tuple encoder. -/
def encodeCall (sig : MethodSignature) (args : List TypedValue) :
    Except EncodingError (List Nat) :=
  if args.length = sig.args.length then
    match encodeTuple (sig.args.zip args) with
    | .ok payload => .ok (selectorOf (canonicalSig sig) ++ payload)
    | .error err => .error err
  else .error .ArgumentMismatch

/-! ### SigningContext, ContractHandle, dispatch (spec §3, §4.4, §4.5) -/

/-- Modelled from the spec: SigningContext state (spec §3, §4.4): credential
held in memory, endpoint, cached ChainIdentity, next nonce to hand out. -/
structure SigningContext where
  key : Nat
  endpoint : String
  chainId : Option Nat
  nextNonce : Nat
deriving Repr, DecidableEq

/-- Spec §3 SignedTransaction: CallData + target + nonce + chain identity +
signature over the above. -/
structure SignedTransaction where
  callData : List Nat
  target : List Nat
  nonce : Nat
  chainId : Nat
  signature : Nat
deriving Repr, DecidableEq

/-- Deterministic stand-in for the signature scheme over the transaction
fields with the credential (the concrete scheme is an external primitive). -/
def sigOver (key : Nat) (target callData : List Nat) (nonce cid : Nat) : Nat :=
  bytesToNatBE target + 3 * bytesToNatBE callData + 5 * nonce + 7 * cid + 11 * key

/-- Modelled from the spec: ContractHandle (spec §3): one address, one
registry, optionally one SigningContext; no mutable state between calls. -/
structure ContractHandle where
  address : List Nat
  registry : List MethodSignature
  signing : Option SigningContext

/-- Observable interactions of one invocation, in order of occurrence. -/
inductive NetEvent where
  | querySent (addr : List Nat) (data : List Nat)
  | chainIdFetched
  | signed (nonce : Nat)
  | submitted
deriving Repr, DecidableEq

/-- Spec §7 error taxonomy as surfaced by an invocation. -/
inductive CallError where
  | Encoding (e : EncodingError)
  | Decode (e : DecodeError)
  | State (e : StateError)
  | Transport (e : TransportError)
deriving Repr, DecidableEq

/-- Result of an invocation: decoded values for a query, a transaction
identifier for a mutation (spec §4.5). -/
inductive InvokeOutcome where
  | values (vs : List TypedValue)
  | txId (id : Nat)

/-- Modelled from the spec: the §4.5 dispatch state machine of
ContractHandle, as a function from the invocation inputs to the outcome and
the ordered trace of observable interactions.  `queryResp` is the remote's
raw answer to a query, `remoteCid` the remote chain identity, `txIdOf` the
remote's assignment of transaction identifiers.  Encoding happens first
(`Built → Encoded`); the dispatch branch then either queries and decodes
(Pure/View) or requires a signing context, reuses or fetches the chain
identity, signs with a fresh nonce and submits (Payable/NonPayable). -/
def invoke (hnd : ContractHandle) (sig : MethodSignature) (args : List TypedValue)
    (queryResp : List Nat) (remoteCid : Nat) (txIdOf : SignedTransaction → Nat) :
    Except CallError InvokeOutcome × List NetEvent :=
  match encodeCall sig args with
  | .error e => (.error (.Encoding e), [])
  | .ok callData =>
    if isMutating sig.mutability then
      match hnd.signing with
      | none => (.error (.State .NoSigningContext), [])
      | some ctx =>
        let cid := ctx.chainId.getD remoteCid
        let nonce := ctx.nextNonce
        let st : SignedTransaction :=
          ⟨callData, hnd.address, nonce, cid, sigOver ctx.key hnd.address callData nonce cid⟩
        (.ok (.txId (txIdOf st)),
          (if ctx.chainId.isNone then [NetEvent.chainIdFetched] else []) ++
            [.signed nonce, .submitted])
    else
      match decodeReturns sig.rets queryResp with
      | .ok vs => (.ok (.values vs), [.querySent hnd.address callData])
      | .error e => (.error (.Decode e), [.querySent hnd.address callData])

/-- Whether a trace contains a call to `SigningContext.sign`. -/
def hasSignEvent (evs : List NetEvent) : Bool :=
  evs.any (fun ev => match ev with | .signed _ => true | _ => false)

/-- Modelled from the spec: ChainIdentity lookup (spec §3): reuse the cached
value when present, otherwise fetch from the remote endpoint and cache it.
Returns the identity, the updated context, and whether a fetch occurred. -/
def getChainId (ctx : SigningContext) (remote : Nat) : Nat × SigningContext × Bool :=
  match ctx.chainId with
  | some c => (c, ctx, false)
  | none => (remote, { ctx with chainId := some remote }, true)

/-- Modelled from the spec: explicitly resetting the context to an endpoint.
Pointing at a different endpoint invalidates the cached ChainIdentity
(spec §3); resetting to the same endpoint is a no-op. -/
def resetEndpoint (ctx : SigningContext) (url : String) : SigningContext :=
  if url = ctx.endpoint then ctx else { ctx with endpoint := url, chainId := none }

/-- Run `k` successive signed submissions through one SigningContext,
collecting for each whether a chain-identity fetch occurred and which chain
identity the submission was signed against. -/
def runSubmits : SigningContext → Nat → Nat → SigningContext × List Bool × List Nat
  | ctx, _, 0 => (ctx, [], [])
  | ctx, remote, k + 1 =>
    let g := getChainId ctx remote
    let r := runSubmits g.2.1 remote k
    (r.1, g.2.2 :: r.2.1, g.1 :: r.2.2)

/-- Modelled from the spec: §5 nonce allocation: the single mutual-exclusion
point around "read current nonce, increment, hand out"; each allocation is
one atomic step, so any concurrent schedule of allocations is an
interleaving of these steps. -/
def allocNonce (ctx : SigningContext) : Nat × SigningContext :=
  (ctx.nextNonce, { ctx with nextNonce := ctx.nextNonce + 1 })

/-- Nonces handed out by `k` successive (serialized) allocations. -/
def nonceTrace : SigningContext → Nat → List Nat
  | _, 0 => []
  | ctx, k + 1 => (allocNonce ctx).1 :: nonceTrace (allocNonce ctx).2 k

/-! ### Configuration and construction (spec §6, §7; source `main`) -/

/-- Whitespace as trimmed by the credential loader: Rust's `str::trim`
removes every character with the Unicode White_Space property (U+0009-U+000D,
space, NEL, NBSP, ogham space mark, the U+2000-U+200A spaces, the line and
paragraph separators, narrow and medium mathematical spaces, and the
ideographic space). -/
def isWs (c : Char) : Bool :=
  decide ((9 ≤ c.toNat ∧ c.toNat ≤ 13) ∨ c.toNat = 32 ∨ c.toNat = 133 ∨
    c.toNat = 160 ∨ c.toNat = 5760 ∨ (8192 ≤ c.toNat ∧ c.toNat ≤ 8202) ∨
    c.toNat = 8232 ∨ c.toNat = 8233 ∨ c.toNat = 8239 ∨ c.toNat = 8287 ∨
    c.toNat = 12288)

/-- Source: `BufReader::read_line` reads up to and including the first newline (or
to end of file). -/
def readLine : List Char → List Char
  | [] => []
  | c :: rest => if c = '\n' then [c] else c :: readLine rest

/-- Source: `str::trim`, the text without leading and trailing whitespace. -/
def trimChars (cs : List Char) : List Char :=
  ((cs.dropWhile isWs).reverse.dropWhile isWs).reverse

/-- Failure of the credential loader (the `?` on `File::open`). -/
inductive IoError where
  | OpenFailed
deriving Repr, DecidableEq

/-- Embedded from the source (`read_secret_from_file`, lines 101-107): open
the file (an unopenable file is an error, not a panic), read the first line,
and return it trimmed.  The file is modelled as its character contents when
openable. -/
def read_secret_from_file (file : Option (List Char)) : Except IoError (List Char) :=
  match file with
  | none => .error .OpenFailed
  | some contents => .ok (trimChars (readLine contents))

/-! ### Concrete scenario data -/

/-- Nested dynamic-array descriptor used in the round-trip check. -/
def nestedTy : TypeDescriptor := .DynamicArray (.DynamicArray (.UnsignedInt 256))

/-- Nested dynamic-array value used in the round-trip check. -/
def nestedVal : TypedValue := .Arr [.Arr [.UInt 7, .UInt 9], .Arr [], .Arr [.UInt 5]]

/-- The encoding of `nestedVal` at `nestedTy` (total by construction). -/
def nestedEnc : List Nat := (encodeValue nestedTy nestedVal).toOption.getD []

/-- A raw response representing the tuple `("", 16)` for
`sum(uint256[]) -> (string, uint256)`: an offset word to the string payload,
the in-place uint word 16, then the string's zero length word. -/
def craftedSumResponse : List Nat :=
  natToBytesBE 64 32 ++ natToBytesBE 16 32 ++ natToBytesBE 0 32

/-- A query response of 32 bytes, all zero except the last byte holding 18. -/
def decimalsResponse : List Nat := List.replicate 31 0 ++ [18]

/-- A concrete handle with no bound SigningContext, for closed checks. -/
def someHandle : ContractHandle := ⟨List.replicate 20 0, wethRegistry, none⟩

/-- A signature with a declared `uint8` argument, for closed checks. -/
def u8Sig : MethodSignature :=
  ⟨"setSmall", [.UnsignedInt 256, .UnsignedInt 8], [], .NonPayable⟩

/-! ## Theorems -/

theorem natToBytesBE_length (n k : Nat) : (natToBytesBE n k).length = k := by
  induction k generalizing n with
  | zero => rfl
  | succ m ih => simp [natToBytesBE, ih]

theorem bytesToNatBE_append_singleton (bs : List Nat) (b : Nat) :
    bytesToNatBE (bs ++ [b]) = bytesToNatBE bs * 256 + b := by
  simp [bytesToNatBE, List.foldl_append]

theorem bytesToNatBE_natToBytesBE (n k : Nat) (h : n < 256 ^ k) :
    bytesToNatBE (natToBytesBE n k) = n := by
  induction k generalizing n with
  | zero =>
    simp [Nat.pow_zero] at h
    simp [natToBytesBE, bytesToNatBE, h]
  | succ m ih =>
    have hdiv : n / 256 < 256 ^ m := by
      rw [Nat.div_lt_iff_lt_mul (by norm_num : 0 < 256)]
      calc n < 256 ^ (m + 1) := h
        _ = 256 ^ m * 256 := by ring
    rw [natToBytesBE, bytesToNatBE_append_singleton, ih _ hdiv]
    omega

theorem padRight32_length_ge (bs : List Nat) : bs.length ≤ (padRight32 bs).length := by
  simp [padRight32]

/-- Taking 32 bytes from a 32-byte block followed by anything returns the block. -/
theorem take32_append (xs ys : List Nat) (h : xs.length = 32) :
    (xs ++ ys).take 32 = xs := by
  rw [← h, List.take_left]

/-- Dropping 32 bytes past a 32-byte block lands at the start of the remainder. -/
theorem drop32_append (xs ys : List Nat) (h : xs.length = 32) :
    (xs ++ ys).drop 32 = ys := by
  rw [← h, List.drop_left]

theorem pow_256_32 : (256 : Nat) ^ 32 = 2 ^ 256 := by norm_num

theorem headsFrom_length (es : List (List Nat)) :
    ∀ base, (headsFrom base es).length = 32 * es.length := by
  induction es with
  | nil => intro base; simp [headsFrom]
  | cons e es ih =>
    intro base
    simp [headsFrom, natToBytesBE_length, ih]
    ring

theorem length_le_flatten (es : List (List Nat)) (e : List Nat) (he : e ∈ es) :
    e.length ≤ es.flatten.length := by
  induction es with
  | nil => cases he
  | cons x xs ih =>
    rcases List.mem_cons.mp he with h | h
    · subst h; simp
    · have := ih h
      simp only [List.flatten_cons, List.length_append]
      omega

theorem staticSize_ge_32 (t : TypeDescriptor) (hw : wfTy t = true)
    (hst : isDynamic t = false) : 32 ≤ staticSize t := by
  induction t with
  | UnsignedInt bits => simp [staticSize]
  | Address => simp [staticSize]
  | Bool => simp [staticSize]
  | String => simp [isDynamic] at hst
  | DynamicBytes => simp [isDynamic] at hst
  | FixedArray t n ih =>
    simp only [wfTy, Bool.and_eq_true, decide_eq_true_eq] at hw
    simp only [isDynamic] at hst
    have h32 := ih hw.1 hst
    simp only [staticSize]
    calc 32 ≤ staticSize t := h32
      _ = 1 * staticSize t := by ring
      _ ≤ n * staticSize t := Nat.mul_le_mul_right _ hw.2
  | DynamicArray t ih => simp [isDynamic] at hst

theorem matchesList_mem (t : TypeDescriptor) :
    ∀ (vs : List TypedValue), matchesList t vs = true →
    ∀ v ∈ vs, matchesTy t v = true := by
  intro vs
  induction vs with
  | nil => intro _ v hv; cases hv
  | cons x xs ih =>
    intro h v hv
    simp only [matchesList, Bool.and_eq_true] at h
    rcases List.mem_cons.mp hv with h' | h'
    · subst h'; exact h.1
    · exact ih h.2 v h'

/-- Strengthen a pointwise relation on paired lists using membership facts. -/
theorem forall2_strengthen {α β : Type} (P Q : α → β → Prop) :
    ∀ (xs : List α) (ys : List β), (∀ x ∈ xs, ∀ y, P x y → Q x y) →
    List.Forall₂ P xs ys → List.Forall₂ Q xs ys := by
  intro xs ys hpq h
  induction h with
  | nil => exact List.Forall₂.nil
  | cons hxy hrest ih =>
    refine List.Forall₂.cons (hpq _ (List.mem_cons_self _ _) _ hxy) (ih ?_)
    intro x hx y hp
    exact hpq x (List.mem_cons_of_mem _ hx) y hp

/-- Decoding a row of static elements laid out in place recovers the values:
each payload occupies exactly `sz` bytes and decodes prefix-tolerantly. -/
theorem decodeElemsF_static (dec : List Nat → Except DecodeError TypedValue) (sz : Nat)
    (full : List Nat) :
    ∀ (es : List (List Nat)) (vs : List TypedValue),
    List.Forall₂ (fun e v => e.length = sz ∧ ∀ rest, dec (e ++ rest) = Except.ok v) es vs →
    ∀ rest, decodeElemsF dec sz false vs.length full (es.flatten ++ rest) = Except.ok vs := by
  intro es vs h
  induction h with
  | nil => intro rest; simp [decodeElemsF]
  | @cons e v es vs hev hrest ih =>
    intro rest
    have hflat : (e :: es).flatten ++ rest = e ++ (es.flatten ++ rest) := by
      simp [List.flatten_cons]
    rw [List.length_cons, hflat]
    have hdrop : (e ++ (es.flatten ++ rest)).drop sz = es.flatten ++ rest := by
      rw [← hev.1, List.drop_left]
    simp only [decodeElemsF, if_neg (by simp : ¬(false = true)), hdrop,
      hev.2 (es.flatten ++ rest), ih rest]

/-- Decoding a row of dynamic elements through their offset words recovers the
values: the cursor walks the head of offsets, each offset lands at the start
of its element's payload inside `full`. -/
theorem decodeElemsF_dyn (dec : List Nat → Except DecodeError TypedValue) (sz : Nat)
    (full : List Nat) :
    ∀ (es : List (List Nat)) (vs : List TypedValue),
    List.Forall₂ (fun e v => ∀ rest, dec (e ++ rest) = Except.ok v) es vs →
    ∀ (base : Nat) (junk tail0 : List Nat),
    full.drop base = es.flatten ++ tail0 →
    base + es.flatten.length < 256 ^ 32 →
    decodeElemsF dec sz true vs.length full (headsFrom base es ++ junk) = Except.ok vs := by
  intro es vs h
  induction h with
  | nil => intro base junk tail0 _ _; simp [decodeElemsF]
  | @cons e v es vs hev hrest ih =>
    intro base junk tail0 hdrop hbound
    have hcur : headsFrom base (e :: es) ++ junk =
        natToBytesBE base 32 ++ (headsFrom (base + e.length) es ++ junk) := by
      simp [headsFrom]
    rw [List.length_cons, hcur]
    have hlen32 : (natToBytesBE base 32).length = 32 := natToBytesBE_length base 32
    have hguard : 32 ≤ (natToBytesBE base 32 ++ (headsFrom (base + e.length) es ++ junk)).length := by
      simp [hlen32]
    have htake : (natToBytesBE base 32 ++ (headsFrom (base + e.length) es ++ junk)).take 32 =
        natToBytesBE base 32 := take32_append _ _ hlen32
    have hbase : base < 256 ^ 32 := by
      have : e.length + es.flatten.length ≥ 0 := Nat.zero_le _
      simp only [List.flatten_cons, List.length_append] at hbound
      omega
    have hword : bytesToNatBE ((natToBytesBE base 32 ++
        (headsFrom (base + e.length) es ++ junk)).take 32) = base := by
      rw [htake, bytesToNatBE_natToBytesBE base 32 hbase]
    have hfull : full.drop base = e ++ (es.flatten ++ tail0) := by
      rw [hdrop]; simp [List.flatten_cons]
    have hdec : dec (full.drop base) = Except.ok v := by
      rw [hfull]; exact hev (es.flatten ++ tail0)
    have hdropcur : (natToBytesBE base 32 ++ (headsFrom (base + e.length) es ++ junk)).drop 32 =
        headsFrom (base + e.length) es ++ junk := drop32_append _ _ hlen32
    have hdrop2 : full.drop (base + e.length) = es.flatten ++ tail0 := by
      have : full.drop (base + e.length) = (full.drop base).drop e.length := by
        rw [List.drop_drop, Nat.add_comm]
      rw [this, hfull, List.drop_left]
    have hbound2 : (base + e.length) + es.flatten.length < 256 ^ 32 := by
      simp only [List.flatten_cons, List.length_append] at hbound
      omega
    have hrec := ih (base + e.length) junk tail0 hdrop2 hbound2
    simp only [decodeElemsF, if_pos rfl, if_pos hguard, hword, hdec, hdropcur, hrec]
    simp

/-- Successful encoding of a homogeneous element list yields payloads
pointwise related to the values by `P`, given that every per-element
encoding success implies `P`. -/
theorem encodeList_forall2 (t : TypeDescriptor) (P : List Nat → TypedValue → Prop) :
    ∀ (vs : List TypedValue) (es : List (List Nat)),
    (∀ v ∈ vs, ∀ e, encodeValue t v = Except.ok e → P e v) →
    encodeList t vs = Except.ok es →
    List.Forall₂ P es vs := by
  intro vs
  induction vs with
  | nil =>
    intro es _ henc
    simp only [encodeList] at henc
    cases henc
    exact List.Forall₂.nil
  | cons v vs ih =>
    intro es hP henc
    simp only [encodeList] at henc
    cases he : encodeValue t v with
    | error err => rw [he] at henc; simp at henc
    | ok e =>
      cases hes : encodeList t vs with
      | error err => rw [he, hes] at henc; simp at henc
      | ok es0 =>
        rw [he, hes] at henc
        simp only at henc
        cases henc
        refine List.Forall₂.cons (hP v (List.mem_cons_self _ _) e he) ?_
        exact ih es0 (fun v' hv' e' he' => hP v' (List.mem_cons_of_mem _ hv') e' he') hes

/-- Total payload length of a static element row. -/
theorem flatten_length_of_forall2 (t : TypeDescriptor) (hst : isDynamic t = false) :
    ∀ (es : List (List Nat)) (vs : List TypedValue),
    List.Forall₂ (ElemRT t) es vs →
    es.flatten.length = vs.length * staticSize t := by
  intro es vs h
  induction h with
  | nil => simp
  | @cons e v es vs hev hrest ih =>
    simp only [List.flatten_cons, List.length_append, List.length_cons, ih,
      hev.1 hst]
    ring

/-- Decoding an assembled element region (either layout) recovers the values. -/
theorem decode_assemble (t : TypeDescriptor) (hw : wfTy t = true)
    (es : List (List Nat)) (vs : List TypedValue)
    (hf : List.Forall₂ (ElemRT t) es vs)
    (hb : (assemble (isDynamic t) es).length < 256 ^ 32)
    (rest : List Nat) :
    decodeElemsF (decodeValue t) (staticSize t) (isDynamic t) vs.length
      (assemble (isDynamic t) es ++ rest) (assemble (isDynamic t) es ++ rest) =
      Except.ok vs := by
  cases hdy : isDynamic t with
  | false =>
    rw [hdy] at hb
    have hasm : assemble false es = es.flatten := by simp [assemble]
    rw [hasm] at hb ⊢
    have hstrong : List.Forall₂
        (fun e v => e.length = staticSize t ∧
          ∀ rest, decodeValue t (e ++ rest) = Except.ok v) es vs := by
      refine forall2_strengthen _ _ es vs ?_ hf
      intro e he v hP
      refine ⟨hP.1 hdy, hP.2 ?_⟩
      have := length_le_flatten es e he
      omega
    exact decodeElemsF_static (decodeValue t) (staticSize t) _ es vs hstrong rest
  | true =>
    rw [hdy] at hb
    have hasm : assemble true es =
        headsFrom (32 * es.length) es ++ es.flatten := by simp [assemble]
    rw [hasm] at hb ⊢
    have hstrong : List.Forall₂
        (fun e v => ∀ rest, decodeValue t (e ++ rest) = Except.ok v) es vs := by
      refine forall2_strengthen _ _ es vs ?_ hf
      intro e he v hP
      refine hP.2 ?_
      have h1 := length_le_flatten es e he
      have h2 : (headsFrom (32 * es.length) es ++ es.flatten).length =
          32 * es.length + es.flatten.length := by simp [headsFrom_length]
      omega
    have hassoc : (headsFrom (32 * es.length) es ++ es.flatten) ++ rest =
        headsFrom (32 * es.length) es ++ (es.flatten ++ rest) := by
      rw [List.append_assoc]
    rw [hassoc]
    have hlenasm : (headsFrom (32 * es.length) es ++ es.flatten).length =
        32 * es.length + es.flatten.length := by simp [headsFrom_length]
    refine decodeElemsF_dyn (decodeValue t) (staticSize t) _ es vs hstrong
      (32 * es.length) (es.flatten ++ rest) rest ?_ ?_
    · exact List.drop_left' (headsFrom_length es (32 * es.length))
    · omega

/-- The assembled region of a well-formed element row is at least 32 bytes
per element: offsets in the dynamic layout, full slots in the static one. -/
theorem assemble_length_ge (t : TypeDescriptor) (hw : wfTy t = true)
    (es : List (List Nat)) (vs : List TypedValue)
    (hf : List.Forall₂ (ElemRT t) es vs) :
    32 * vs.length ≤ (assemble (isDynamic t) es).length := by
  have hlen : es.length = vs.length := hf.length_eq
  cases hdy : isDynamic t with
  | false =>
    have hflat := flatten_length_of_forall2 t hdy es vs hf
    have h32 := staticSize_ge_32 t hw hdy
    have hasm : assemble false es = es.flatten := by simp [assemble]
    rw [hasm, hflat]
    calc 32 * vs.length = vs.length * 32 := by ring
      _ ≤ vs.length * staticSize t := Nat.mul_le_mul_left _ h32
  | true =>
    have hasm : assemble true es =
        headsFrom (32 * es.length) es ++ es.flatten := by simp [assemble]
    rw [hasm]
    simp only [List.length_append, headsFrom_length, hlen]
    omega

/-- Round-trip for a fixed-size array, given round-trips of its elements. -/
theorem rt_fixArr (t : TypeDescriptor) (n : Nat)
    (es : List (List Nat)) (vs : List TypedValue)
    (hw : wfTy t = true) (hlen : vs.length = n)
    (hf : List.Forall₂ (ElemRT t) es vs) :
    ElemRT (.FixedArray t n) (assemble (isDynamic t) es) (.Arr vs) := by
  constructor
  · intro hst
    simp only [isDynamic] at hst
    have hflat := flatten_length_of_forall2 t hst es vs hf
    have hasm : assemble (isDynamic t) es = es.flatten := by simp [assemble, hst]
    rw [hasm, hflat, hlen]
    simp only [staticSize]
  · intro hb rest
    have hdec := decode_assemble t hw es vs hf hb rest
    rw [← hlen]
    simp only [decodeValue]
    rw [hdec]
    rfl

/-- Round-trip for a dynamic array, given round-trips of its elements. -/
theorem rt_dynArr (t : TypeDescriptor)
    (es : List (List Nat)) (vs : List TypedValue)
    (hw : wfTy t = true)
    (hf : List.Forall₂ (ElemRT t) es vs) :
    ElemRT (.DynamicArray t)
      (natToBytesBE vs.length 32 ++ assemble (isDynamic t) es) (.Arr vs) := by
  constructor
  · intro hst; simp [isDynamic] at hst
  · intro hb rest
    have hlenw : (natToBytesBE vs.length 32).length = 32 := natToBytesBE_length _ _
    have hasmge := assemble_length_ge t hw es vs hf
    have hetot : (natToBytesBE vs.length 32 ++ assemble (isDynamic t) es).length =
        32 + (assemble (isDynamic t) es).length := by
      simp [hlenw]
    have hk : vs.length < 256 ^ 32 := by omega
    have hassoc : (natToBytesBE vs.length 32 ++ assemble (isDynamic t) es) ++ rest =
        natToBytesBE vs.length 32 ++ (assemble (isDynamic t) es ++ rest) := by
      rw [List.append_assoc]
    rw [hassoc]
    have hguard : 32 ≤ (natToBytesBE vs.length 32 ++
        (assemble (isDynamic t) es ++ rest)).length := by
      simp [hlenw]
    have htake : (natToBytesBE vs.length 32 ++
        (assemble (isDynamic t) es ++ rest)).take 32 = natToBytesBE vs.length 32 :=
      take32_append _ _ hlenw
    have hdropw : (natToBytesBE vs.length 32 ++
        (assemble (isDynamic t) es ++ rest)).drop 32 =
        assemble (isDynamic t) es ++ rest := drop32_append _ _ hlenw
    have hword : bytesToNatBE ((natToBytesBE vs.length 32 ++
        (assemble (isDynamic t) es ++ rest)).take 32) = vs.length := by
      rw [htake, bytesToNatBE_natToBytesBE _ _ hk]
    have hdec := decode_assemble t hw es vs hf (by omega) rest
    simp only [decodeValue, if_pos hguard, hword, hdropw, hdec]
    rfl

/-- Round-trip for an unsigned integer slot. -/
theorem rt_uint (bits x : Nat) (hx : x < 2 ^ bits) (hbits : bits ≤ 256) :
    ElemRT (.UnsignedInt bits) (natToBytesBE x 32) (.UInt x) := by
  have hlen : (natToBytesBE x 32).length = 32 := natToBytesBE_length _ _
  constructor
  · intro _; simp [staticSize, hlen]
  · intro _ rest
    have hx32 : x < 256 ^ 32 := by
      rw [pow_256_32]
      exact lt_of_lt_of_le hx (Nat.pow_le_pow_right (by norm_num) hbits)
    have hguard : 32 ≤ (natToBytesBE x 32 ++ rest).length := by simp [hlen]
    have htake := take32_append (natToBytesBE x 32) rest hlen
    simp only [decodeValue, if_pos hguard, htake,
      bytesToNatBE_natToBytesBE x 32 hx32]

/-- Round-trip for an address slot (20 bytes left-padded to 32). -/
theorem rt_addr (bs : List Nat) (h20 : bs.length = 20) :
    ElemRT .Address (List.replicate 12 0 ++ bs) (.Addr bs) := by
  have hlen : (List.replicate 12 (0 : Nat) ++ bs).length = 32 := by simp [h20]
  constructor
  · intro _; simp [staticSize, hlen, h20]
  · intro _ rest
    have hguard : 32 ≤ ((List.replicate 12 (0 : Nat) ++ bs) ++ rest).length := by
      rw [List.length_append, hlen]; omega
    have htake := take32_append (List.replicate 12 (0 : Nat) ++ bs) rest hlen
    have hdrop : (List.replicate 12 (0 : Nat) ++ bs).drop 12 = bs :=
      List.drop_left' (by simp)
    simp only [decodeValue, if_pos hguard, htake, hdrop]

/-- Round-trip for a boolean slot. -/
theorem rt_bool (b : Bool) :
    ElemRT .Bool (natToBytesBE (if b then 1 else 0) 32) (.Boolean b) := by
  have hlen : (natToBytesBE (if b then 1 else 0) 32).length = 32 :=
    natToBytesBE_length _ _
  constructor
  · intro _; simp [staticSize, hlen]
  · intro _ rest
    have hguard : 32 ≤ (natToBytesBE (if b then 1 else 0) 32 ++ rest).length := by
      simp [hlen]
    have htake := take32_append (natToBytesBE (if b then 1 else 0) 32) rest hlen
    have hvlt : (if b then 1 else 0) < 256 ^ 32 := by cases b <;> norm_num
    simp only [decodeValue, if_pos hguard, htake,
      bytesToNatBE_natToBytesBE _ 32 hvlt]
    cases b <;> simp

/-- Reading back a length-prefixed byte payload (shared by String and
DynamicBytes): the four facts the decoder needs. -/
theorem rt_payload (bs : List Nat) (rest : List Nat)
    (hb : (natToBytesBE bs.length 32 ++ padRight32 bs).length < 256 ^ 32) :
    32 ≤ (natToBytesBE bs.length 32 ++ padRight32 bs ++ rest).length ∧
    bytesToNatBE ((natToBytesBE bs.length 32 ++ padRight32 bs ++ rest).take 32) =
      bs.length ∧
    32 + bs.length ≤ (natToBytesBE bs.length 32 ++ padRight32 bs ++ rest).length ∧
    ((natToBytesBE bs.length 32 ++ padRight32 bs ++ rest).drop 32).take bs.length = bs := by
  have hlenw : (natToBytesBE bs.length 32).length = 32 := natToBytesBE_length _ _
  have hpadge : bs.length ≤ (padRight32 bs).length := padRight32_length_ge bs
  have hlt : bs.length < 256 ^ 32 := by
    have : (natToBytesBE bs.length 32 ++ padRight32 bs).length =
        32 + (padRight32 bs).length := by simp [hlenw]
    omega
  have hassoc : natToBytesBE bs.length 32 ++ padRight32 bs ++ rest =
      natToBytesBE bs.length 32 ++ (padRight32 bs ++ rest) := by
    rw [List.append_assoc]
  refine ⟨?_, ?_, ?_, ?_⟩
  · simp [hlenw]
  · rw [hassoc, take32_append _ _ hlenw, bytesToNatBE_natToBytesBE _ _ hlt]
  · simp only [List.append_assoc, List.length_append, hlenw]
    omega
  · rw [hassoc, drop32_append _ _ hlenw]
    have hsplit : padRight32 bs ++ rest =
        bs ++ (List.replicate ((32 - bs.length % 32) % 32) 0 ++ rest) := by
      simp [padRight32]
    rw [hsplit, List.take_left' rfl]

/-- Round-trip for a string slot (length-prefixed UTF-8 payload). -/
theorem rt_str (bs : List Nat) :
    ElemRT .String (natToBytesBE bs.length 32 ++ padRight32 bs) (.Str bs) := by
  constructor
  · intro hst; simp [isDynamic] at hst
  · intro hb rest
    obtain ⟨h1, h2, h3, h4⟩ := rt_payload bs rest hb
    simp only [List.append_assoc] at h1 h2 h3 h4 ⊢
    simp only [decodeValue, if_pos h1, h2, if_pos h3, h4]

/-- Round-trip for a dynamic-bytes slot. -/
theorem rt_bytes (bs : List Nat) :
    ElemRT .DynamicBytes (natToBytesBE bs.length 32 ++ padRight32 bs) (.Bytes bs) := by
  constructor
  · intro hst; simp [isDynamic] at hst
  · intro hb rest
    obtain ⟨h1, h2, h3, h4⟩ := rt_payload bs rest hb
    simp only [List.append_assoc] at h1 h2 h3 h4 ⊢
    simp only [decodeValue, if_pos h1, h2, if_pos h3, h4]

/-- Main round-trip induction: any successful encoding of a matching value at
a well-formed descriptor satisfies the per-element round-trip property. -/
theorem rt_main : ∀ (N : Nat) (t : TypeDescriptor) (v : TypedValue),
    sizeOf v < N → wfTy t = true → matchesTy t v = true →
    ∀ e, encodeValue t v = Except.ok e → ElemRT t e v := by
  intro N
  induction N with
  | zero => intro t v hsz; exact absurd hsz (Nat.not_lt_zero _)
  | succ n0 ih =>
    intro t v hsz hw hm e he
    cases t with
    | UnsignedInt bits =>
      cases v
      case UInt x =>
        simp only [matchesTy, decide_eq_true_eq] at hm
        simp only [wfTy, Bool.and_eq_true, decide_eq_true_eq] at hw
        simp only [encodeValue, if_pos hm, Except.ok.injEq] at he
        subst he
        exact rt_uint bits x hm hw.2
      all_goals simp [matchesTy] at hm
    | Address =>
      cases v
      case Addr bs =>
        simp only [matchesTy, Bool.and_eq_true, decide_eq_true_eq] at hm
        simp only [encodeValue, if_pos hm.1, Except.ok.injEq] at he
        subst he
        exact rt_addr bs hm.1
      all_goals simp [matchesTy] at hm
    | Bool =>
      cases v
      case Boolean b =>
        simp only [encodeValue, Except.ok.injEq] at he
        subst he
        exact rt_bool b
      all_goals simp [matchesTy] at hm
    | String =>
      cases v
      case Str bs =>
        simp only [encodeValue, Except.ok.injEq] at he
        subst he
        exact rt_str bs
      all_goals simp [matchesTy] at hm
    | DynamicBytes =>
      cases v
      case Bytes bs =>
        simp only [encodeValue, Except.ok.injEq] at he
        subst he
        exact rt_bytes bs
      all_goals simp [matchesTy] at hm
    | FixedArray t n =>
      cases v
      case Arr vs =>
        simp only [matchesTy, Bool.and_eq_true, decide_eq_true_eq] at hm
        simp only [wfTy, Bool.and_eq_true, decide_eq_true_eq] at hw
        simp only [encodeValue, if_pos hm.1] at he
        cases hes : encodeList t vs with
        | error err => rw [hes] at he; simp at he
        | ok es =>
          rw [hes] at he
          simp only [Except.ok.injEq] at he
          subst he
          have hszvs : sizeOf vs < sizeOf (TypedValue.Arr vs) := by simp
          have hforall : List.Forall₂ (ElemRT t) es vs := by
            refine encodeList_forall2 t (ElemRT t) vs es ?_ hes
            intro v' hv' e' he'
            have h1 : sizeOf v' < sizeOf vs := List.sizeOf_lt_of_mem hv'
            exact ih t v' (by omega) hw.1 (matchesList_mem t vs hm.2 v' hv') e' he'
          exact rt_fixArr t n es vs hw.1 hm.1 hforall
      all_goals simp [matchesTy] at hm
    | DynamicArray t =>
      cases v
      case Arr vs =>
        simp only [matchesTy] at hm
        simp only [wfTy] at hw
        simp only [encodeValue] at he
        cases hes : encodeList t vs with
        | error err => rw [hes] at he; simp at he
        | ok es =>
          rw [hes] at he
          simp only [Except.ok.injEq] at he
          subst he
          have hszvs : sizeOf vs < sizeOf (TypedValue.Arr vs) := by simp
          have hforall : List.Forall₂ (ElemRT t) es vs := by
            refine encodeList_forall2 t (ElemRT t) vs es ?_ hes
            intro v' hv' e' he'
            have h1 : sizeOf v' < sizeOf vs := List.sizeOf_lt_of_mem hv'
            exact ih t v' (by omega) hw (matchesList_mem t vs hm v' hv') e' he'
          exact rt_dynArr t es vs hw hforall
      all_goals simp [matchesTy] at hm

/-- C1: for every TypedValue `v` whose tag structurally matches a well-formed
TypeDescriptor `t` (the spec §3 matching invariant, including value ranges),
decoding the encoding of `v` at `t` returns `v` — the round-trip law,
including nested dynamic arrays of dynamic arrays.  The encoding must be
addressable by 32-byte offset words, i.e. shorter than `256 ^ 32` bytes. -/
theorem abi_roundtrip (t : TypeDescriptor) (v : TypedValue) (e : List Nat)
    (hw : wfTy t = true) (hm : matchesTy t v = true)
    (he : encodeValue t v = Except.ok e) (hb : e.length < 256 ^ 32) :
    decodeValue t e = Except.ok v := by
  have h := rt_main (sizeOf v + 1) t v (Nat.lt_succ_self _) hw hm e he
  have h2 := h.2 hb []
  simpa using h2

/-- Witness for C1 at a nested dynamic array of dynamic arrays. -/
theorem abi_roundtrip_witness :
    wfTy nestedTy = true ∧ matchesTy nestedTy nestedVal = true ∧
    encodeValue nestedTy nestedVal = Except.ok nestedEnc ∧
    nestedEnc.length < 256 ^ 32 ∧
    decodeValue nestedTy nestedEnc = Except.ok nestedVal :=
  ⟨rfl, rfl, rfl, by decide,
    abi_roundtrip nestedTy nestedVal nestedEnc rfl rfl rfl (by decide)⟩

/-- C4: with the registry containing `sum(uint256[]) -> (string, uint256)`,
encoding the call `sum([16])` succeeds, and decoding a raw response
representing the tuple `("", 16)` yields exactly `[String(""), UInt(16)]`. -/
theorem sum_scenario :
    resolve wethRegistry "sum" [.DynamicArray (.UnsignedInt 256)] = .ok sumSig ∧
    (∃ cd, encodeCall sumSig [.Arr [.UInt 16]] = Except.ok cd) ∧
    decodeReturns sumSig.rets craftedSumResponse =
      Except.ok [.Str [], .UInt 16] := by
  refine ⟨by rfl, ⟨_, rfl⟩, by rfl⟩

/-- C5: with the registry containing `decimals() -> uint8`, a query response
of 32 zero bytes with 18 in the last byte decodes to `UInt(18)`. -/
theorem decimals_scenario :
    resolve wethRegistry "decimals" [] = .ok decimalsSig ∧
    decodeReturns decimalsSig.rets decimalsResponse = Except.ok [.UInt 18] := by
  refine ⟨by rfl, by rfl⟩

/-- C2: invoking a method whose mutability class is Pure or View through a
ContractHandle never calls `SigningContext.sign`: the trace of the
invocation contains no signing event, only the query path. -/
theorem query_never_signs (hnd : ContractHandle) (sig : MethodSignature)
    (args : List TypedValue) (queryResp : List Nat) (remoteCid : Nat)
    (txIdOf : SignedTransaction → Nat)
    (hmut : sig.mutability = .Pure ∨ sig.mutability = .View) :
    hasSignEvent (invoke hnd sig args queryResp remoteCid txIdOf).2 = false := by
  have hmut2 : isMutating sig.mutability = false := by
    rcases hmut with h | h <;> rw [h] <;> rfl
  unfold invoke
  split
  · simp [hasSignEvent]
  · rw [hmut2]
    simp only [Bool.false_eq_true, if_false]
    split
    · simp [hasSignEvent]
    · simp [hasSignEvent]

/-- Witness for C2: `decimals()` is Pure and its invocation signs nothing. -/
theorem query_never_signs_witness :
    (decimalsSig.mutability = .Pure ∨ decimalsSig.mutability = .View) ∧
    hasSignEvent
      (invoke someHandle decimalsSig [] decimalsResponse 0 (fun _ => 0)).2 = false :=
  ⟨Or.inl rfl,
    query_never_signs someHandle decimalsSig [] decimalsResponse 0 (fun _ => 0)
      (Or.inl rfl)⟩

/-- C3: invoking a Payable or NonPayable method through a ContractHandle with
no bound SigningContext fails with `NoSigningContext`, with an empty
interaction trace — the failure occurs before any network interaction. -/
theorem mutate_without_signer (hnd : ContractHandle) (sig : MethodSignature)
    (args : List TypedValue) (queryResp : List Nat) (remoteCid : Nat)
    (txIdOf : SignedTransaction → Nat)
    (hmut : sig.mutability = .Payable ∨ sig.mutability = .NonPayable)
    (hns : hnd.signing = none)
    (henc : ∃ cd, encodeCall sig args = Except.ok cd) :
    invoke hnd sig args queryResp remoteCid txIdOf =
      (.error (.State .NoSigningContext), []) := by
  obtain ⟨cd, henc⟩ := henc
  have hmut2 : isMutating sig.mutability = true := by
    rcases hmut with h | h <;> rw [h] <;> rfl
  unfold invoke
  split
  · rename_i e heq
    rw [henc] at heq
    cases heq
  · rw [hmut2, if_pos rfl, hns]

/-- Witness for C3: `deposit()` is Payable; without a signer it fails with
`NoSigningContext` and an empty trace. -/
theorem mutate_without_signer_witness :
    (depositSig.mutability = .Payable ∨ depositSig.mutability = .NonPayable) ∧
    someHandle.signing = none ∧
    (∃ cd, encodeCall depositSig [] = Except.ok cd) ∧
    invoke someHandle depositSig [] [] 0 (fun _ => 0) =
      (.error (.State .NoSigningContext), []) :=
  ⟨Or.inl rfl, rfl, ⟨_, rfl⟩,
    mutate_without_signer someHandle depositSig [] [] 0 (fun _ => 0)
      (Or.inl rfl) rfl ⟨_, rfl⟩⟩

/-- If a prefix of components encodes successfully and the next component's
encoding fails, the whole tuple's component encoding fails with that error. -/
theorem encodePieces_append_cons_err :
    ∀ (xs : List (TypeDescriptor × TypedValue)) (ps : List (Bool × List Nat)),
    encodePieces xs = Except.ok ps →
    ∀ (t : TypeDescriptor) (v : TypedValue) (ys : List (TypeDescriptor × TypedValue))
      (err : EncodingError),
    encodeValue t v = Except.error err →
    encodePieces (xs ++ (t, v) :: ys) = Except.error err := by
  intro xs
  induction xs with
  | nil =>
    intro ps _ t v ys err hv
    simp only [List.nil_append, encodePieces, hv]
  | cons x xs ih =>
    intro ps hps t v ys err hv
    obtain ⟨t0, v0⟩ := x
    simp only [encodePieces] at hps
    cases h0 : encodeValue t0 v0 with
    | error e0 => rw [h0] at hps; simp at hps
    | ok e0 =>
      cases hxs : encodePieces xs with
      | error e1 => rw [h0, hxs] at hps; simp at hps
      | ok ps0 =>
        have hih := ih ps0 hxs t v ys err hv
        simp only [List.cons_append, encodePieces, h0]
        rw [show xs.append ((t, v) :: ys) = xs ++ (t, v) :: ys from rfl, hih]

/-- C6: an argument declared `UnsignedInt(8)` given the value 300 makes the
whole invocation fail with `ValueOutOfRange` (provided the arguments before
it encode successfully, so no earlier failure preempts it), with an empty
interaction trace — before any transport call is made. -/
theorem uint8_range_rejected (hnd : ContractHandle) (sig : MethodSignature)
    (ts1 ts2 : List TypeDescriptor) (pre post : List TypedValue)
    (qr : List Nat) (rc : Nat) (tid : SignedTransaction → Nat)
    (hargs : sig.args = ts1 ++ .UnsignedInt 8 :: ts2)
    (hlen1 : pre.length = ts1.length)
    (hlen2 : post.length = ts2.length)
    (hpre : ∃ ps, encodePieces (ts1.zip pre) = Except.ok ps) :
    invoke hnd sig (pre ++ .UInt 300 :: post) qr rc tid =
      (.error (.Encoding .ValueOutOfRange), []) := by
  obtain ⟨ps, hps⟩ := hpre
  have hlen : (pre ++ TypedValue.UInt 300 :: post).length = sig.args.length := by
    rw [hargs]; simp [hlen1, hlen2]
  have hzip : sig.args.zip (pre ++ .UInt 300 :: post) =
      ts1.zip pre ++ (TypeDescriptor.UnsignedInt 8, TypedValue.UInt 300) :: ts2.zip post := by
    rw [hargs, List.zip_append hlen1.symm, List.zip_cons_cons]
  have hval : encodeValue (.UnsignedInt 8) (.UInt 300) =
      Except.error .ValueOutOfRange := rfl
  have htup : encodeTuple (sig.args.zip (pre ++ .UInt 300 :: post)) =
      Except.error .ValueOutOfRange := by
    rw [hzip]
    simp only [encodeTuple,
      encodePieces_append_cons_err (ts1.zip pre) ps hps _ _ _ _ hval]
  have hcall : encodeCall sig (pre ++ .UInt 300 :: post) =
      Except.error .ValueOutOfRange := by
    simp only [encodeCall, if_pos hlen, htup]
  simp only [invoke, hcall]

/-- Witness for C6: `setSmall(uint256, uint8)` called as `setSmall(1, 300)`
is rejected with `ValueOutOfRange` and an empty trace. -/
theorem uint8_range_rejected_witness :
    u8Sig.args = [.UnsignedInt 256] ++ .UnsignedInt 8 :: [] ∧
    ([TypedValue.UInt 1].length = [TypeDescriptor.UnsignedInt 256].length) ∧
    (([] : List TypedValue).length = ([] : List TypeDescriptor).length) ∧
    (∃ ps, encodePieces ([TypeDescriptor.UnsignedInt 256].zip [TypedValue.UInt 1]) =
      Except.ok ps) ∧
    invoke someHandle u8Sig ([.UInt 1] ++ .UInt 300 :: []) [] 0 (fun _ => 0) =
      (.error (.Encoding .ValueOutOfRange), []) :=
  ⟨rfl, rfl, rfl, ⟨_, rfl⟩,
    uint8_range_rejected someHandle u8Sig [.UnsignedInt 256] [] [.UInt 1] []
      [] 0 (fun _ => 0) rfl rfl rfl ⟨_, rfl⟩⟩

/-- Once the chain identity is cached, further submissions never fetch and
always sign against the cached value, leaving the context unchanged. -/
theorem runSubmits_cached (remote c : Nat) :
    ∀ (k : Nat) (ctx : SigningContext), ctx.chainId = some c →
    runSubmits ctx remote k = (ctx, List.replicate k false, List.replicate k c) := by
  intro k
  induction k with
  | zero => intro ctx _; rfl
  | succ m ih =>
    intro ctx h
    simp only [runSubmits, getChainId, h]
    rw [ih ctx h]
    simp [List.replicate_succ]

/-- C7: starting from a fresh SigningContext, a run of `k + 1` signed
submissions fetches the chain identity exactly once — on the first
submission, before its signing — and signs every submission against that
cached value; explicitly resetting the context to a different endpoint
clears the cache (forcing a re-fetch), while resetting to the same endpoint
leaves the context untouched. -/
theorem chain_identity_cached_once (key : Nat) (ep : String) (n0 remote k : Nat)
    (url : String) (hurl : url ≠ ep) :
    (runSubmits ⟨key, ep, none, n0⟩ remote (k + 1)).2.1 =
      true :: List.replicate k false ∧
    (runSubmits ⟨key, ep, none, n0⟩ remote (k + 1)).2.2 =
      List.replicate (k + 1) remote ∧
    (resetEndpoint (runSubmits ⟨key, ep, none, n0⟩ remote (k + 1)).1 url).chainId =
      none ∧
    resetEndpoint (runSubmits ⟨key, ep, none, n0⟩ remote (k + 1)).1 ep =
      (runSubmits ⟨key, ep, none, n0⟩ remote (k + 1)).1 := by
  have hstep : runSubmits ⟨key, ep, none, n0⟩ remote (k + 1) =
      (⟨key, ep, some remote, n0⟩, true :: List.replicate k false,
        remote :: List.replicate k remote) := by
    simp only [runSubmits, getChainId]
    rw [runSubmits_cached remote remote k ⟨key, ep, some remote, n0⟩ rfl]
  rw [hstep]
  refine ⟨rfl, by simp [List.replicate_succ], ?_, ?_⟩
  · simp [resetEndpoint, hurl]
  · simp [resetEndpoint]

/-- Witness for C7 at a concrete fresh context, three submissions, and a
reset to a different endpoint. -/
theorem chain_identity_cached_once_witness :
    ("b" : String) ≠ "a" ∧
    ((runSubmits ⟨0, "a", none, 0⟩ 5 (2 + 1)).2.1 = true :: List.replicate 2 false ∧
      (runSubmits ⟨0, "a", none, 0⟩ 5 (2 + 1)).2.2 = List.replicate (2 + 1) 5 ∧
      (resetEndpoint (runSubmits ⟨0, "a", none, 0⟩ 5 (2 + 1)).1 "b").chainId = none ∧
      resetEndpoint (runSubmits ⟨0, "a", none, 0⟩ 5 (2 + 1)).1 "a" =
        (runSubmits ⟨0, "a", none, 0⟩ 5 (2 + 1)).1) :=
  ⟨by decide, chain_identity_cached_once 0 "a" 0 5 2 "b" (by decide)⟩

/-- Serialized nonce allocations hand out consecutive values. -/
theorem nonceTrace_range (k : Nat) :
    ∀ (ctx : SigningContext), nonceTrace ctx k = List.range' ctx.nextNonce k := by
  induction k with
  | zero => intro ctx; rfl
  | succ m ih =>
    intro ctx
    simp only [nonceTrace, allocNonce, ih, List.range'_succ]

/-- C9: nonce allocation goes through the single mutual-exclusion point of
the SigningContext, so any schedule of concurrent mutating invocations is an
interleaving of atomic allocations — and the nonces handed out by any such
run are pairwise distinct. -/
theorem nonces_distinct (ctx : SigningContext) (k : Nat) :
    (nonceTrace ctx k).Nodup := by
  rw [nonceTrace_range k ctx]
  exact List.nodup_range' _ _

/-- Source: `read_line` on text with a first newline yields the first line
plus the newline character. -/
theorem readLine_append_newline :
    ∀ (pre post : List Char), Char.ofNat 10 ∉ pre →
    readLine (pre ++ Char.ofNat 10 :: post) = pre ++ [Char.ofNat 10] := by
  intro pre
  induction pre with
  | nil => intro post _; simp [readLine]
  | cons c cs ih =>
    intro post h
    have hc : ¬(c = Char.ofNat 10) := fun hh => h (by rw [hh]; exact List.mem_cons_self _ _)
    have hcs : Char.ofNat 10 ∉ cs := fun hh => h (List.mem_cons_of_mem _ hh)
    simp only [List.cons_append, readLine]
    rw [if_neg (by simpa using hc),
      show cs.append (Char.ofNat 10 :: post) = cs ++ Char.ofNat 10 :: post from rfl,
      ih post hcs]

/-- Source: `read_line` on newline-free text reads the whole text. -/
theorem readLine_no_newline :
    ∀ (cs : List Char), Char.ofNat 10 ∉ cs → readLine cs = cs := by
  intro cs
  induction cs with
  | nil => intro _; rfl
  | cons c cs ih =>
    intro h
    have hc : ¬(c = Char.ofNat 10) := fun hh => h (by rw [hh]; exact List.mem_cons_self _ _)
    have hcs : Char.ofNat 10 ∉ cs := fun hh => h (List.mem_cons_of_mem _ hh)
    simp only [readLine]
    rw [if_neg (by simpa using hc), ih hcs]

/-- Trimming absorbs the trailing newline left by `read_line`. -/
theorem trimChars_append_newline (pre : List Char) :
    trimChars (pre ++ [Char.ofNat 10]) = trimChars pre := by
  have hnl : isWs (Char.ofNat 10) = true := by decide
  simp only [trimChars, List.dropWhile_append]
  by_cases hdp : (pre.dropWhile isWs).isEmpty
  · rw [if_pos hdp]
    have hempty : pre.dropWhile isWs = [] := by
      cases hcase : pre.dropWhile isWs with
      | nil => rfl
      | cons x xs => rw [hcase] at hdp; simp [List.isEmpty] at hdp
    rw [hempty]
    simp [List.dropWhile, hnl]
  · rw [if_neg hdp]
    simp [List.dropWhile, hnl]

/-- C10: for a readable file, `read_secret_from_file` returns exactly the
first line with leading and trailing whitespace removed, ignoring all
content after the first newline (and reading the whole content when there is
no newline); an unopenable file is an error, not a panic. -/
theorem read_secret_first_line (pre post : List Char)
    (h : Char.ofNat 10 ∉ pre) :
    read_secret_from_file (some (pre ++ Char.ofNat 10 :: post)) =
      Except.ok (trimChars pre) ∧
    read_secret_from_file (some pre) = Except.ok (trimChars pre) ∧
    read_secret_from_file none = Except.error .OpenFailed := by
  refine ⟨?_, ?_, rfl⟩
  · simp only [read_secret_from_file, readLine_append_newline pre post h,
      trimChars_append_newline]
  · simp only [read_secret_from_file, readLine_no_newline pre h]

/-- Witness for C10 on a concrete two-line file with padded first line. -/
theorem read_secret_first_line_witness :
    Char.ofNat 10 ∉ ("  key42 ".data) ∧
    (read_secret_from_file (some ("  key42 ".data ++ Char.ofNat 10 :: "rest".data)) =
        Except.ok (trimChars "  key42 ".data) ∧
      read_secret_from_file (some "  key42 ".data) =
        Except.ok (trimChars "  key42 ".data) ∧
      read_secret_from_file none = Except.error .OpenFailed) :=
  ⟨by decide, read_secret_first_line "  key42 ".data "rest".data (by decide)⟩
end AbiClient
